import Mathlib

/-!
Verification of the BEHAVIOR-1K `BehaviorLeRobotDataset` data-loading core
(`omnigibson/learning/datas/lerobot_dataset.py`): chunk planning, delta-window
resolution, the chunk-streaming cursor, loader-pool reload policy, episode
selection, and the construction-time configuration checks.

Machine integers in the source are Python arbitrary-precision integers, so they
are embedded as `Nat`/`Int` directly.
-/

set_option maxHeartbeats 1000000

namespace B1K

/-- A chunk `(global_start, global_end, local_start)`, exactly the tuples built
by `BehaviorLeRobotDataset._get_keyframe_chunk_indices`. -/
abbrev Chunk := Nat × Nat × Nat

/-- `local_starts = list(range(0, L, chunk_size))`: the episode-local chunk
start boundaries.  `range(0, L, step)` has `⌈L / step⌉ = (L + step - 1) / step`
elements, so it is `List.range'` with that count and step `chunk_size`. -/
def localStarts (L csize : Nat) : List Nat :=
  List.range' 0 ((L + csize - 1) / csize) csize

/-- `local_ends = local_starts[1:] + [L]`. -/
def localEnds (L csize : Nat) : List Nat :=
  (localStarts L csize).tail ++ [L]

/-- The chunks contributed by one episode of length `L` whose rows start at
global row `offset`: `chunks.append((offset + ls, offset + le, ls))` for each
`(ls, le)` in `zip(local_starts, local_ends)`. -/
def episodeChunks (offset L csize : Nat) : List Chunk :=
  ((localStarts L csize).zip (localEnds L csize)).map
    (fun p => (offset + p.1, offset + p.2, p.1))

/-- The loop of `_get_keyframe_chunk_indices`: iterate the selected episodes'
lengths in order, keeping a running global `offset` that advances by each
episode's length. -/
def chunksAux (csize : Nat) : List Nat → Nat → List Chunk
  | [], _ => []
  | L :: rest, offset => episodeChunks offset L csize ++ chunksAux csize rest (offset + L)

/-- `_get_keyframe_chunk_indices(chunk_size)`: all chunks of the selected
episodes (given by their lengths in `EpisodeIndex` order), starting at global
offset 0. -/
def getKeyframeChunkIndices (episodeLengths : List Nat) (csize : Nat) : List Chunk :=
  chunksAux csize episodeLengths 0

/-- The half-open global row range `[global_start, global_end)` covered by a
chunk, as a list of row indices. -/
def chunkRange (ch : Chunk) : List Nat :=
  List.range' ch.1 (ch.2.1 - ch.1)

/-- An episode of length 0 contributes no chunks: `range(0, 0, csize)` is empty
and `zip([], [0])` is empty. -/
lemma episodeChunks_zero (offset csize : Nat) (hc : 0 < csize) :
    episodeChunks offset 0 csize = [] := by
  have h : (csize - 1) / csize = 0 := Nat.div_eq_of_lt (by omega)
  simp [episodeChunks, localStarts, localEnds, h]

/-- An episode with `0 < L ≤ chunk_size` yields exactly one chunk covering the
whole episode. -/
lemma episodeChunks_small (offset L csize : Nat) (h1 : 0 < L) (h2 : L ≤ csize) :
    episodeChunks offset L csize = [(offset, offset + L, 0)] := by
  have h : (L + csize - 1) / csize = 1 := by
    apply Nat.div_eq_of_lt_le (by omega) (by omega)
  simp [episodeChunks, localStarts, localEnds, h, List.range'_succ]

/-- For `chunk_size < L`, the boundary list `range(0, L, chunk_size)` is `0`
followed by the boundaries of the remaining `L - chunk_size` rows shifted by
`chunk_size`. -/
lemma localStarts_of_lt (L csize : Nat) (hc : 0 < csize) (h : csize < L) :
    localStarts L csize = 0 :: (localStarts (L - csize) csize).map (csize + ·) := by
  have e1 : (L + csize - 1) / csize = ((L - csize) + csize - 1) / csize + 1 := by
    have h1 : L + csize - 1 = (L - 1 - csize) + csize + csize := by omega
    have h2 : (L - csize) + csize - 1 = (L - 1 - csize) + csize := by omega
    rw [h1, h2, Nat.add_div_right _ hc, Nat.add_div_right _ hc]
  unfold localStarts
  rw [e1, List.range'_succ]
  rw [show 0 + csize = csize + 0 by omega, ← List.map_add_range']

/-- Recursive characterization of one episode's chunks when `chunk_size < L`:
the first chunk is `(offset, offset + chunk_size, 0)` and the remaining chunks
are those of the `L - chunk_size` remaining rows at offset
`offset + chunk_size`, with their `local_start` components shifted by
`chunk_size`. -/
lemma episodeChunks_step (offset L csize : Nat) (hc : 0 < csize) (h : csize < L) :
    episodeChunks offset L csize
      = (offset, offset + csize, 0)
        :: (episodeChunks (offset + csize) (L - csize) csize).map
             (fun ch => (ch.1, ch.2.1, ch.2.2 + csize)) := by
  obtain ⟨m', hm'⟩ : ∃ m', (L - csize + csize - 1) / csize = m' + 1 := by
    refine ⟨(L - csize + csize - 1) / csize - 1, ?_⟩
    have : 1 ≤ (L - csize + csize - 1) / csize := by
      rw [Nat.one_le_div_iff hc]; omega
    omega
  have hsub : localStarts (L - csize) csize = 0 :: List.range' csize m' csize := by
    unfold localStarts
    rw [hm', List.range'_succ, Nat.zero_add]
  have hs : localStarts L csize
      = 0 :: (localStarts (L - csize) csize).map (csize + ·) :=
    localStarts_of_lt L csize hc h
  have hmapcons : (localStarts (L - csize) csize).map (csize + ·)
      = csize :: (List.range' csize m' csize).map (csize + ·) := by
    rw [hsub]; simp
  have hzip :
      ((localStarts L csize).zip (localEnds L csize))
        = (0, csize)
          :: (((localStarts (L - csize) csize).zip (localEnds (L - csize) csize)).map
                (Prod.map (csize + ·) (csize + ·))) := by
    unfold localEnds
    rw [hs, hmapcons, hsub]
    rw [← List.zip_map]
    simp only [List.tail_cons, List.map_cons, List.map_append, List.map_nil,
      List.cons_append, Nat.add_zero]
    rw [show csize + (L - csize) = L by omega]
    simp [List.zip_cons_cons]
  unfold episodeChunks
  rw [hzip]
  simp only [List.map_cons, List.map_map]
  refine congrArg₂ List.cons (by simp) ?_
  refine List.map_congr_left ?_
  intro p hp
  simp only [Function.comp, Prod.map]
  simp only [Prod.ext_iff]
  omega

/-- The chunks of one episode cover exactly its global row range
`[offset, offset + L)`, in order, with no gaps or overlaps. -/
lemma episodeChunks_coverage (csize : Nat) (hc : 0 < csize) :
    ∀ (L : Nat) (offset : Nat),
      ((episodeChunks offset L csize).map chunkRange).flatten = List.range' offset L := by
  intro L
  induction L using Nat.strong_induction_on with
  | _ L ih =>
    intro offset
    rcases Nat.lt_or_ge csize L with h | h
    · rw [episodeChunks_step offset L csize hc h]
      simp only [List.map_cons, List.map_map, List.flatten_cons]
      have hcomp : (chunkRange ∘ fun ch : Chunk => (ch.1, ch.2.1, ch.2.2 + csize))
          = chunkRange := by
        funext ch; rfl
      rw [hcomp, ih (L - csize) (by omega) (offset + csize)]
      have h1 : chunkRange (offset, offset + csize, 0) = List.range' offset csize := by
        simp [chunkRange]
      rw [h1, List.range'_append_1]
      congr 1
      omega
    · rcases Nat.eq_zero_or_pos L with h0 | h0
      · subst h0
        rw [episodeChunks_zero offset csize hc]
        simp
      · rw [episodeChunks_small offset L csize h0 h]
        simp [chunkRange]

/-- Shape of each chunk of one episode: its `global_start` is the episode's
global start plus its `local_start`, it is non-empty, its length is at most
`chunk_size`, it ends within the episode, and every chunk that is not the
episode's final one has length exactly `chunk_size`. -/
lemma episodeChunks_props (csize : Nat) (hc : 0 < csize) :
    ∀ (L : Nat) (offset : Nat), ∀ ch ∈ episodeChunks offset L csize,
      ch.1 = offset + ch.2.2 ∧ ch.1 < ch.2.1 ∧ ch.2.1 - ch.1 ≤ csize
        ∧ ch.2.1 ≤ offset + L ∧ (ch.2.1 ≠ offset + L → ch.2.1 - ch.1 = csize) := by
  intro L
  induction L using Nat.strong_induction_on with
  | _ L ih =>
    intro offset ch hch
    rcases Nat.lt_or_ge csize L with h | h
    · rw [episodeChunks_step offset L csize hc h] at hch
      rcases List.mem_cons.mp hch with rfl | hch
      · exact ⟨by simp, by show offset < offset + csize; omega,
          by show offset + csize - offset ≤ csize; omega,
          by show offset + csize ≤ offset + L; omega,
          fun _ => by show offset + csize - offset = csize; omega⟩
      · obtain ⟨ch', hch', rfl⟩ := List.mem_map.mp hch
        obtain ⟨e1, e2, e3, e4, e5⟩ := ih (L - csize) (by omega) (offset + csize) ch' hch'
        refine ⟨by simp only []; omega, by simpa using e2, by simpa using e3,
          by simp only []; omega, ?_⟩
        intro hne
        apply e5
        simp only [] at hne ⊢
        omega
    · rcases Nat.eq_zero_or_pos L with h0 | h0
      · subst h0
        rw [episodeChunks_zero offset csize hc] at hch
        simp at hch
      · rw [episodeChunks_small offset L csize h0 h] at hch
        simp only [List.mem_singleton] at hch
        subst hch
        exact ⟨by simp, by show offset < offset + L; omega,
          by show offset + L - offset ≤ csize; omega,
          by show offset + L ≤ offset + L; omega,
          fun hne => absurd rfl hne⟩

/-- The planner's full output covers exactly the global row range
`[offset, offset + sum of lengths)`, in order. -/
lemma chunksAux_coverage (csize : Nat) (hc : 0 < csize) :
    ∀ (lengths : List Nat) (offset : Nat),
      ((chunksAux csize lengths offset).map chunkRange).flatten
        = List.range' offset lengths.sum := by
  intro lengths
  induction lengths with
  | nil => intro offset; simp [chunksAux]
  | cons L rest ih =>
    intro offset
    simp only [chunksAux, List.map_append, List.flatten_append, List.sum_cons]
    rw [episodeChunks_coverage csize hc L offset, ih (offset + L), List.range'_append_1]
    congr 1
    omega

/-- Every chunk the planner emits is non-empty and no longer than
`chunk_size`. -/
lemma chunksAux_wf (csize : Nat) (hc : 0 < csize) :
    ∀ (lengths : List Nat) (offset : Nat), ∀ ch ∈ chunksAux csize lengths offset,
      ch.1 < ch.2.1 ∧ ch.2.1 - ch.1 ≤ csize := by
  intro lengths
  induction lengths with
  | nil => intro offset ch hch; simp [chunksAux] at hch
  | cons L rest ih =>
    intro offset ch hch
    rcases List.mem_append.mp hch with hch | hch
    · obtain ⟨_, e2, e3, _, _⟩ := episodeChunks_props csize hc L offset ch hch
      exact ⟨e2, e3⟩
    · exact ih (offset + L) ch hch

/-- C1: chunk planning partitions every selected episode exactly.  Iterating
the selected episodes in order with a running global offset, each episode of
length `L` yields half-open chunks at local boundaries `0, chunk_size, ...`
capped at `L`; the union of an episode's chunk ranges is its full row range
`[offset, offset + L)` in order with no gaps or overlaps; every chunk's
`local_start` equals its `global_start` minus the episode's global start;
every chunk has length `chunk_size` except possibly the final chunk of an
episode; an episode with `0 < L < chunk_size` yields exactly one chunk
covering the whole episode; the whole plan partitions `[0, total rows)`; and
the spec's worked example (`length 600, chunk_size 250`, twice) holds. -/
theorem chunk_planning_partition (csize : Nat) (hc : 0 < csize) :
    (∀ offset L,
        ((episodeChunks offset L csize).map chunkRange).flatten = List.range' offset L)
  ∧ (∀ offset L, ∀ ch ∈ episodeChunks offset L csize,
        ch.1 = offset + ch.2.2
          ∧ ch.1 < ch.2.1
          ∧ ch.2.1 - ch.1 ≤ csize
          ∧ (ch.2.1 ≠ offset + L → ch.2.1 - ch.1 = csize))
  ∧ (∀ offset L, 0 < L → L < csize → episodeChunks offset L csize = [(offset, offset + L, 0)])
  ∧ (∀ lengths, ((getKeyframeChunkIndices lengths csize).map chunkRange).flatten
        = List.range lengths.sum)
  ∧ episodeChunks 0 600 250 = [(0, 250, 0), (250, 500, 250), (500, 600, 500)]
  ∧ getKeyframeChunkIndices [600, 600] 250
      = [(0, 250, 0), (250, 500, 250), (500, 600, 500),
         (600, 850, 0), (850, 1100, 250), (1100, 1200, 500)] := by
  refine ⟨fun offset L => episodeChunks_coverage csize hc L offset, ?_, ?_, ?_,
    by decide, by decide⟩
  · intro offset L ch hch
    obtain ⟨e1, e2, e3, _, e5⟩ := episodeChunks_props csize hc L offset ch hch
    exact ⟨e1, e2, e3, e5⟩
  · intro offset L h0 hlt
    exact episodeChunks_small offset L csize h0 (Nat.le_of_lt hlt)
  · intro lengths
    rw [List.range_eq_range']
    exact chunksAux_coverage csize hc lengths 0

/-- Witness for C1 at `chunk_size = 250`, episode length 600. -/
theorem chunk_planning_partition_witness :
    0 < 250
  ∧ ((episodeChunks 0 600 250).map chunkRange).flatten = List.range' 0 600 :=
  ⟨by decide, (chunk_planning_partition 250 (by decide)).1 0 600⟩

/-! ### Delta-window resolution (`_get_query_indices`) -/

/-- One resolved query index:
`max(ep_start.item(), min(ep_end.item() - 1, idx + delta))`.  Python integers
are unbounded, and `delta` may be negative, so the embedding uses `Int`. -/
def getQueryIndex (epStart epEnd idx delta : Int) : Int :=
  max epStart (min (epEnd - 1) (idx + delta))

/-- One padding flag:
`(idx + delta < ep_start.item()) | (idx + delta >= ep_end.item())`. -/
def isPadFlag (epStart epEnd idx delta : Int) : Bool :=
  decide (idx + delta < epStart) || decide (idx + delta ≥ epEnd)

/-- The query-index list of one named offset group:
`[max(ep_start, min(ep_end - 1, idx + delta)) for delta in delta_idx]`. -/
def queryIndicesGroup (epStart epEnd idx : Int) (deltas : List Int) : List Int :=
  deltas.map (getQueryIndex epStart epEnd idx)

/-- The parallel padding list of one named offset group:
`[(idx + delta < ep_start) | (idx + delta >= ep_end) for delta in delta_idx]`. -/
def paddingGroup (epStart epEnd idx : Int) (deltas : List Int) : List Bool :=
  deltas.map (isPadFlag epStart epEnd idx)

/-- C2: for every episode with non-empty row range `[epStart, epEnd)`, every
offset's resolved query index is `clamp(idx + delta, epStart, epEnd - 1)` and
lies in `[epStart, epEnd)`; the parallel padding flag is true iff the
unclamped `idx + delta` falls outside `[epStart, epEnd)`; the two lists are
index-aligned with the offset list; and the spec's worked examples (offsets
`[-2, 0, 3]`, rows `[100, 150)`, at rows 101 and 149) hold — except that at
row 101 the offset `-2` reaches unclamped row 99, which lies below the episode
start 100, so its padding flag is `true`: the padding list is
`[true, false, false]`, not `[false, false, false]`. -/
theorem delta_window_clamping (epStart epEnd idx : Int) (deltas : List Int)
    (h : epStart < epEnd) :
    (∀ delta ∈ deltas,
        epStart ≤ getQueryIndex epStart epEnd idx delta
          ∧ getQueryIndex epStart epEnd idx delta < epEnd
          ∧ (isPadFlag epStart epEnd idx delta = true
              ↔ ¬(epStart ≤ idx + delta ∧ idx + delta < epEnd)))
  ∧ (queryIndicesGroup epStart epEnd idx deltas).length = deltas.length
  ∧ (paddingGroup epStart epEnd idx deltas).length = deltas.length
  ∧ queryIndicesGroup 100 150 101 [-2, 0, 3] = [100, 101, 104]
  ∧ paddingGroup 100 150 101 [-2, 0, 3] = [true, false, false]
  ∧ queryIndicesGroup 100 150 149 [-2, 0, 3] = [147, 149, 149]
  ∧ paddingGroup 100 150 149 [-2, 0, 3] = [false, false, true] := by
  refine ⟨?_, by simp [queryIndicesGroup], by simp [paddingGroup],
    by decide, by decide, by decide, by decide⟩
  intro delta _
  unfold getQueryIndex isPadFlag
  refine ⟨?_, ?_, ?_⟩
  · exact le_max_left _ _
  · rcases le_or_lt (idx + delta) (epEnd - 1) with hle | hlt
    · have : min (epEnd - 1) (idx + delta) ≤ epEnd - 1 := min_le_left _ _
      omega
    · have : min (epEnd - 1) (idx + delta) = epEnd - 1 := min_eq_left (by omega)
      omega
  · constructor
    · intro hp
      rcases Bool.or_eq_true_iff.mp hp with hp | hp <;> simp at hp <;> omega
    · intro hp
      rcases Decidable.not_and_iff_or_not.mp hp with hp | hp
      · exact Bool.or_eq_true_iff.mpr (Or.inl (by simp; omega))
      · exact Bool.or_eq_true_iff.mpr (Or.inr (by simp; omega))

/-- Counterexample for C2 as stated: the claim asserts that at `global_row =
101` with offsets `[-2, 0, 3]` and episode rows `[100, 150)` the padding list
is `[false, false, false]`; the code computes `[true, false, false]`, because
the unclamped `101 - 2 = 99` falls below the episode start 100. -/
theorem delta_window_example_padding_counterexample :
    paddingGroup 100 150 101 [-2, 0, 3] = [true, false, false]
  ∧ paddingGroup 100 150 101 [-2, 0, 3] ≠ [false, false, false] := by
  constructor
  · decide
  · decide

/-- Witness for C2 at the spec's example episode `[100, 150)`. -/
theorem delta_window_clamping_witness :
    (100 : Int) < 150
  ∧ (∀ delta ∈ ([-2, 0, 3] : List Int),
        (100 : Int) ≤ getQueryIndex 100 150 149 delta
          ∧ getQueryIndex 100 150 149 delta < 150
          ∧ (isPadFlag 100 150 149 delta = true
              ↔ ¬((100 : Int) ≤ 149 + delta ∧ (149 : Int) + delta < 150))) :=
  ⟨by decide, (delta_window_clamping 100 150 149 [-2, 0, 3] (by decide)).1⟩

/-! ### Chunk-streaming cursor (`__getitem__`, streaming branch, seeded) -/

/-- Default chunk used to embed Python's list indexing totally; all theorems
keep the cursor in bounds, where `getD` agrees with Python `chunks[i]`. -/
def dChunk : Chunk := (0, 0, 0)

/-- Chunk-index advance of lines
`self.current_streaming_chunk_idx += 1` /
`if self.current_streaming_chunk_idx >= len(self.chunks): ... = 0`. -/
def nextChunkIdx (n i : Nat) : Nat :=
  if n ≤ i + 1 then 0 else i + 1

/-- The boundary test and chunk move at the top of a streaming fetch
(lines 312–318): if the frame position reached the current chunk's
`global_end`, move to the next chunk (wrapping after the last) and reset the
frame position to that chunk's `global_start`, flagging a loader reload.
Returns `(chunk_idx, frame_idx, reload_flagged)`. -/
def streamAdvance (chunks : List Chunk) (ci fi : Nat) : Nat × Nat × Bool :=
  if (chunks.getD ci dChunk).2.1 ≤ fi then
    let ci' := nextChunkIdx chunks.length ci
    (ci', (chunks.getD ci' dChunk).1, true)
  else (ci, fi, false)

/-- One seeded streaming fetch: advance past an exhausted chunk if needed,
produce the record at the (possibly reset) frame position, then increment the
frame position (`self.current_streaming_frame_idx += 1`).  Returns
`(next_state, produced_frame, reload_flagged)`. -/
def streamFetch (chunks : List Chunk) (s : Nat × Nat) : (Nat × Nat) × Nat × Bool :=
  let a := streamAdvance chunks s.1 s.2
  ((a.1, a.2.1 + 1), a.2.1, a.2.2)

/-- `n` successive streaming fetches: the list of produced global frame
indices and the final cursor state. -/
def streamRun (chunks : List Chunk) : Nat → Nat × Nat → List Nat × (Nat × Nat)
  | 0, s => ([], s)
  | n + 1, s =>
      let f := streamFetch chunks s
      let r := streamRun chunks n f.1
      (f.2.1 :: r.1, r.2)

/-- Splitting a run: `m + n` fetches are `m` fetches followed by `n` fetches
from the reached state. -/
lemma streamRun_add (chunks : List Chunk) (m n : Nat) (s : Nat × Nat) :
    streamRun chunks (m + n) s
      = ((streamRun chunks m s).1 ++ (streamRun chunks n (streamRun chunks m s).2).1,
         (streamRun chunks n (streamRun chunks m s).2).2) := by
  induction m generalizing s with
  | zero => simp [streamRun]
  | succ m ih =>
      rw [show m + 1 + n = (m + n) + 1 from by omega]
      simp only [streamRun]
      rw [ih]
      simp

/-- Running inside one chunk: while the frame position stays below the current
chunk's `global_end`, fetches produce consecutive frames and only increment
the frame position. -/
lemma streamRun_within (chunks : List Chunk) (ci : Nat) :
    ∀ (k fi : Nat), fi + k ≤ (chunks.getD ci dChunk).2.1 →
      streamRun chunks k (ci, fi) = (List.range' fi k, (ci, fi + k)) := by
  intro k
  induction k with
  | zero => intro fi _; simp [streamRun]
  | succ k ih =>
      intro fi h
      have hlt : ¬((chunks.getD ci dChunk).2.1 ≤ fi) := by omega
      simp only [streamRun, streamFetch, streamAdvance, hlt, if_false]
      rw [ih (fi + 1) (by omega), List.range'_succ]
      simp only [Prod.mk.injEq]
      exact ⟨trivial, trivial, by omega⟩

/-- In-bounds `getD` is plain indexing. -/
lemma getD_of_lt (l : List Chunk) (i : Nat) (h : i < l.length) :
    l.getD i dChunk = l[i] := by
  simp [List.getD_eq_getElem?_getD, List.getElem?_eq_getElem h]

/-- A fetch from an exhausted chunk behaves (record and successor state) like
a fetch from the start of the next chunk, provided that chunk is non-empty:
the chunk move is merely deferred to the next call. -/
lemma streamRun_shift (chunks : List Chunk) (ci fi n : Nat)
    (h : (chunks.getD ci dChunk).2.1 ≤ fi)
    (hne : (chunks.getD (nextChunkIdx chunks.length ci) dChunk).1
            < (chunks.getD (nextChunkIdx chunks.length ci) dChunk).2.1) :
    streamRun chunks (n + 1) (ci, fi)
      = streamRun chunks (n + 1)
          (nextChunkIdx chunks.length ci,
           (chunks.getD (nextChunkIdx chunks.length ci) dChunk).1) := by
  simp only [streamRun, streamFetch, streamAdvance, if_pos h,
    if_neg (Nat.not_le.mpr hne)]

/-- The length in rows of a chunk. -/
def chunkLen (ch : Chunk) : Nat := ch.2.1 - ch.1

/-- Total rows of chunks `ci, ci+1, ..., ci+k-1`. -/
def sliceSize (chunks : List Chunk) (ci k : Nat) : Nat :=
  (((chunks.drop ci).take k).map chunkLen).sum

/-- Concatenated row ranges of chunks `ci, ci+1, ..., ci+k-1`. -/
def sliceFrames (chunks : List Chunk) (ci k : Nat) : List Nat :=
  (((chunks.drop ci).take k).map chunkRange).flatten

/-- Peeling one chunk off a slice. -/
lemma sliceSize_cons (chunks : List Chunk) (ci k : Nat) (hci : ci < chunks.length) :
    sliceSize chunks ci (k + 1)
      = chunkLen (chunks.getD ci dChunk) + sliceSize chunks (ci + 1) k := by
  unfold sliceSize
  rw [List.drop_eq_getElem_cons hci, List.take_succ_cons, List.map_cons, List.sum_cons,
    getD_of_lt chunks ci hci]

/-- Peeling one chunk off a slice's frames. -/
lemma sliceFrames_cons (chunks : List Chunk) (ci k : Nat) (hci : ci < chunks.length) :
    sliceFrames chunks ci (k + 1)
      = chunkRange (chunks.getD ci dChunk) ++ sliceFrames chunks (ci + 1) k := by
  unfold sliceFrames
  rw [List.drop_eq_getElem_cons hci, List.take_succ_cons, List.map_cons, List.flatten_cons,
    getD_of_lt chunks ci hci]

/-- Consuming a non-empty run of consecutive in-bounds chunks from the start
of chunk `ci`: the cursor produces exactly their concatenated row ranges in
order, ending positioned at the exhausted final chunk of the run. -/
lemma streamRun_slice (chunks : List Chunk) (hWF : ∀ ch ∈ chunks, ch.1 < ch.2.1) :
    ∀ (k ci : Nat), 0 < k → ci + k ≤ chunks.length →
      streamRun chunks (sliceSize chunks ci k) (ci, (chunks.getD ci dChunk).1)
        = (sliceFrames chunks ci k,
           (ci + k - 1, (chunks.getD (ci + k - 1) dChunk).2.1)) := by
  intro k
  induction k with
  | zero => intro ci hk _; omega
  | succ k ih =>
      intro ci _ hle
      have hci : ci < chunks.length := by omega
      have hWFci : (chunks.getD ci dChunk).1 < (chunks.getD ci dChunk).2.1 := by
        rw [getD_of_lt chunks ci hci]
        exact hWF _ (chunks.getElem_mem hci)
      rcases Nat.eq_zero_or_pos k with rfl | hk1
      · rw [sliceSize_cons chunks ci 0 hci, sliceFrames_cons chunks ci 0 hci]
        have hz : sliceSize chunks (ci + 1) 0 = 0 := by
          simp [sliceSize]
        have hzf : sliceFrames chunks (ci + 1) 0 = [] := by
          simp [sliceFrames]
        rw [hz, hzf, Nat.add_zero, List.append_nil]
        unfold chunkLen
        rw [streamRun_within chunks ci _ _ (by omega)]
        rw [Nat.add_sub_cancel' (Nat.le_of_lt hWFci)]
        have hidx0 : ci + (0 + 1) - 1 = ci := by omega
        rw [hidx0]
        unfold chunkRange
        rfl
      · have hci1 : ci + 1 < chunks.length := by omega
        have hWFci1 : (chunks.getD (ci + 1) dChunk).1 < (chunks.getD (ci + 1) dChunk).2.1 := by
          rw [getD_of_lt chunks (ci + 1) hci1]
          exact hWF _ (chunks.getElem_mem hci1)
        have hnext : nextChunkIdx chunks.length ci = ci + 1 := by
          unfold nextChunkIdx
          rw [if_neg (by omega)]
        obtain ⟨n', hn'⟩ : ∃ n', sliceSize chunks (ci + 1) k = n' + 1 := by
          refine ⟨sliceSize chunks (ci + 1) k - 1, ?_⟩
          obtain ⟨k', rfl⟩ : ∃ k', k = k' + 1 := ⟨k - 1, by omega⟩
          rw [sliceSize_cons chunks (ci + 1) k' hci1]
          unfold chunkLen
          omega
        have e1 : streamRun chunks (chunkLen (chunks.getD ci dChunk))
              (ci, (chunks.getD ci dChunk).1)
            = (chunkRange (chunks.getD ci dChunk), (ci, (chunks.getD ci dChunk).2.1)) := by
          unfold chunkLen chunkRange
          rw [streamRun_within chunks ci _ _ (by omega)]
          rw [Nat.add_sub_cancel' (Nat.le_of_lt hWFci)]
        have e2 : streamRun chunks (sliceSize chunks (ci + 1) k)
              (ci, (chunks.getD ci dChunk).2.1)
            = (sliceFrames chunks (ci + 1) k,
               (ci + 1 + k - 1, (chunks.getD (ci + 1 + k - 1) dChunk).2.1)) := by
          rw [hn']
          rw [streamRun_shift chunks ci _ n' (Nat.le_refl _) (by rw [hnext]; exact hWFci1)]
          rw [hnext, ← hn']
          exact ih (ci + 1) hk1 (by omega)
        rw [sliceSize_cons chunks ci k hci, sliceFrames_cons chunks ci k hci]
        rw [streamRun_add, e1]
        dsimp only
        rw [e2]
        have hidx : ci + 1 + k - 1 = ci + (k + 1) - 1 := by omega
        rw [hidx]

/-- C3: in chunk-streaming mode, starting from any chunk `c0` of a chunk list
that is a permutation of the planner's output (as after shuffling), the
cursor produces, over one full cycle of `total rows` fetches, exactly the
concatenated row ranges of the chunks in order `c0, c0+1, ..., last, 0, ...,
c0-1` (wrapping to chunk 0 after the last); this is a permutation of all
global rows, so every frame of every chunk is produced exactly once, with no
frame skipped or repeated, and within each chunk frames appear in strictly
increasing order. -/
theorem streaming_cursor_full_cycle (lengths : List Nat) (csize : Nat) (hcs : 0 < csize)
    (chunks : List Chunk) (hperm : chunks.Perm (getKeyframeChunkIndices lengths csize))
    (c0 : Nat) (hc0 : c0 < chunks.length) :
    (streamRun chunks ((chunks.map chunkLen).sum) (c0, (chunks.getD c0 dChunk).1)).1
        = ((chunks.drop c0 ++ chunks.take c0).map chunkRange).flatten
  ∧ (streamRun chunks ((chunks.map chunkLen).sum) (c0, (chunks.getD c0 dChunk).1)).1.Perm
        (List.range lengths.sum)
  ∧ (streamRun chunks ((chunks.map chunkLen).sum) (c0, (chunks.getD c0 dChunk).1)).1.Nodup
  ∧ (∀ ch ∈ chunks, List.Chain' (· < ·) (chunkRange ch)) := by
  have hWF : ∀ ch ∈ chunks, ch.1 < ch.2.1 := by
    intro ch hch
    exact (chunksAux_wf csize hcs lengths 0 ch (hperm.subset hch)).1
  have hlen0 : 0 < chunks.length := by omega
  have hdropfull : (chunks.drop c0).take (chunks.length - c0) = chunks.drop c0 := by
    apply List.take_of_length_le
    simp
  have hmain : (streamRun chunks ((chunks.map chunkLen).sum)
        (c0, (chunks.getD c0 dChunk).1)).1
      = ((chunks.drop c0 ++ chunks.take c0).map chunkRange).flatten := by
    rcases Nat.eq_zero_or_pos c0 with rfl | hpos
    · have htot : (chunks.map chunkLen).sum = sliceSize chunks 0 chunks.length := by
        unfold sliceSize
        rw [List.drop_zero, List.take_length]
      rw [htot, streamRun_slice chunks hWF chunks.length 0 hlen0 (by omega)]
      unfold sliceFrames
      simp
    · have htot : (chunks.map chunkLen).sum
          = sliceSize chunks c0 (chunks.length - c0) + sliceSize chunks 0 c0 := by
        unfold sliceSize
        rw [List.drop_zero, hdropfull]
        conv_lhs => rw [← List.take_append_drop c0 chunks]
        rw [List.map_append, List.sum_append]
        omega
      have hWF0 : (chunks.getD 0 dChunk).1 < (chunks.getD 0 dChunk).2.1 := by
        rw [getD_of_lt _ _ hlen0]
        exact hWF _ (chunks.getElem_mem hlen0)
      have hnext0 : nextChunkIdx chunks.length (chunks.length - 1) = 0 := by
        unfold nextChunkIdx
        rw [if_pos (by omega)]
      obtain ⟨n', hn'⟩ : ∃ n', sliceSize chunks 0 c0 = n' + 1 := by
        refine ⟨sliceSize chunks 0 c0 - 1, ?_⟩
        obtain ⟨c0', rfl⟩ : ∃ c0', c0 = c0' + 1 := ⟨c0 - 1, by omega⟩
        rw [sliceSize_cons chunks 0 c0' hlen0]
        unfold chunkLen
        omega
      rw [htot, streamRun_add,
        streamRun_slice chunks hWF (chunks.length - c0) c0 (by omega) (by omega)]
      dsimp only
      have hidx : c0 + (chunks.length - c0) - 1 = chunks.length - 1 := by omega
      rw [hidx, hn',
        streamRun_shift chunks (chunks.length - 1) _ n' (Nat.le_refl _)
          (by rw [hnext0]; exact hWF0),
        hnext0, ← hn', streamRun_slice chunks hWF c0 0 hpos (by omega)]
      dsimp only
      unfold sliceFrames
      rw [hdropfull, List.drop_zero, ← List.flatten_append, ← List.map_append]
  have hperm2 : (chunks.drop c0 ++ chunks.take c0).Perm chunks := by
    conv_rhs => rw [← List.take_append_drop c0 chunks]
    exact List.perm_append_comm
  have hpermAll : ((chunks.drop c0 ++ chunks.take c0).map chunkRange).flatten.Perm
      (List.range lengths.sum) := by
    have h1 := ((hperm2.trans hperm).map chunkRange).flatten
    unfold getKeyframeChunkIndices at h1
    rw [chunksAux_coverage csize hcs lengths 0, ← List.range_eq_range'] at h1
    exact h1
  refine ⟨hmain, ?_, ?_, ?_⟩
  · rw [hmain]
    exact hpermAll
  · rw [hmain]
    exact hpermAll.nodup_iff.mpr (List.nodup_range lengths.sum)
  · intro ch _
    exact (List.pairwise_lt_range' ch.1 (ch.2.1 - ch.1)).chain'

/-- Witness for C3: planner chunks of two length-5 episodes at
`chunk_size = 2`, starting the cycle at chunk 1. -/
theorem streaming_cursor_full_cycle_witness :
    0 < 2
  ∧ (getKeyframeChunkIndices [5, 5] 2).Perm (getKeyframeChunkIndices [5, 5] 2)
  ∧ 1 < (getKeyframeChunkIndices [5, 5] 2).length
  ∧ ((streamRun (getKeyframeChunkIndices [5, 5] 2)
        (((getKeyframeChunkIndices [5, 5] 2).map chunkLen).sum)
        (1, ((getKeyframeChunkIndices [5, 5] 2).getD 1 dChunk).1)).1.Perm
      (List.range ([5, 5] : List Nat).sum)) :=
  ⟨by decide, List.Perm.refl _, by decide,
    (streaming_cursor_full_cycle [5, 5] 2 (by decide) (getKeyframeChunkIndices [5, 5] 2)
      (List.Perm.refl _) 1 (by decide)).2.1⟩

/-! ### Observation-loader pool reload policy (`__getitem__` lines 311–353) -/

/-- Mutable per-worker streaming state carried across `__getitem__` calls:
cursor position, the `_should_obs_loaders_reload` flag, and the loader pool
`obs_loaders` modelled as the list of `(video_key, start_idx)` pairs the open
decoders were constructed with (`start_idx` is the chunk's `local_start`,
line 346). -/
structure StreamState where
  ci : Nat
  fi : Nat
  reload : Bool
  pool : List (String × Nat)

/-- One seeded streaming `__getitem__` call with the loader-pool lifecycle:
advance past an exhausted chunk (setting `_should_obs_loaders_reload`, line
318); if the flag is set, close every existing handle and open one decoder
per enabled video key seeded at the current chunk's `local_start`
(lines 322–353), then clear the flag.  Returns
`(next_state, produced_frame, reload_happened)`. -/
def fetchFull (chunks : List Chunk) (videoKeys : List String) (s : StreamState) :
    StreamState × Nat × Bool :=
  let a := streamAdvance chunks s.ci s.fi
  let needReload := s.reload || a.2.2
  let pool :=
    if needReload then videoKeys.map (fun k => (k, (chunks.getD a.1 dChunk).2.2))
    else s.pool
  (⟨a.1, a.2.1 + 1, false, pool⟩, a.2.1, needReload)

/-- C5: the loader pool is rebuilt (all handles replaced by one decoder per
enabled video key, seeded at the new chunk's `local_start`) exactly when a
fetch performs a chunk transition or is the first fetch after construction
(whose state carries `reload = true`, line 179), and on no other fetch: after
any fetch the flag is clear, so on every later fetch the reload happens iff
that fetch crossed a chunk boundary — a condition on chunk bounds only, so
every chunk boundary reloads even when the new chunk belongs to the same
episode.  When no reload happens the pool is untouched. -/
theorem loader_reload_policy (chunks : List Chunk) (videoKeys : List String)
    (s : StreamState) :
    (s.reload = true → (fetchFull chunks videoKeys s).2.2 = true)
  ∧ (s.reload = false →
      ((fetchFull chunks videoKeys s).2.2 = true
        ↔ (chunks.getD s.ci dChunk).2.1 ≤ s.fi))
  ∧ (fetchFull chunks videoKeys s).1.reload = false
  ∧ ((fetchFull chunks videoKeys s).2.2 = true →
      (fetchFull chunks videoKeys s).1.pool
        = videoKeys.map
            (fun k => (k, (chunks.getD (fetchFull chunks videoKeys s).1.ci dChunk).2.2)))
  ∧ ((fetchFull chunks videoKeys s).2.2 = false →
      (fetchFull chunks videoKeys s).1.pool = s.pool) := by
  refine ⟨?_, ?_, rfl, ?_, ?_⟩
  · intro h
    simp [fetchFull, h]
  · intro h
    unfold fetchFull streamAdvance
    dsimp only
    rw [h, Bool.false_or]
    rcases Nat.lt_or_ge s.fi (chunks.getD s.ci dChunk).2.1 with hlt | hle
    · rw [if_neg (Nat.not_le.mpr hlt)]
      exact iff_of_false (by simp) (Nat.not_le.mpr hlt)
    · rw [if_pos hle]
      exact iff_of_true rfl hle
  · intro h
    simp only [fetchFull] at h
    simp [fetchFull, h]
  · intro h
    simp only [fetchFull] at h
    simp [fetchFull, h]

/-- Witness for C5: first fetch after construction (flag set) reloads, on a
one-chunk plan. -/
theorem loader_reload_policy_witness :
    (fetchFull [(0, 2, 0)] ["observation.images.rgb.head"]
        ⟨0, 0, true, []⟩).2.2 = true :=
  (loader_reload_policy [(0, 2, 0)] ["observation.images.rgb.head"]
      ⟨0, 0, true, []⟩).1 rfl

/-! ### Cursor seeding (`__getitem__` lines 303–310) and the ignored index

The NumPy generator `np.random.default_rng(self.seed + worker_id)` is an
external collaborator; it is embedded abstractly as a state type `R` with a
constructor `mkRng` and the two consumed operations (`rng.shuffle`, which
permutes the chunk list and advances the generator, and `rng.integers(0, n)`),
all pure functions, which is what NumPy guarantees for a fixed seed. -/

/-- Streaming cursor state across `__getitem__` calls: the (possibly
shuffled) chunk list, `current_streaming_chunk_idx` (`none` when constructed
with `shuffle=True` and not yet seeded), and
`current_streaming_frame_idx`. -/
structure TopState where
  chunks : List Chunk
  ci : Option Nat
  fi : Nat

section Seeding

variable {R : Type} (mkRng : Nat → R)
variable (shuffleChunks : List Chunk → R → List Chunk × R)
variable (integersBelow : Nat → R → Nat × R)

/-- Lines 304–310: when `current_streaming_chunk_idx is None`, build
`default_rng(seed + worker_id)`, shuffle the chunk list in place with it, draw
`rng.integers(0, len(chunks))` as the starting chunk index, and set the frame
position to that chunk's `global_start`.  A seeded cursor is left
untouched. -/
def seedTop (seed workerId : Nat) (s : TopState) : TopState :=
  match s.ci with
  | some _ => s
  | none =>
      let r0 := mkRng (seed + workerId)
      let p := shuffleChunks s.chunks r0
      let q := integersBelow p.1.length p.2
      ⟨p.1, some q.1, (p.1.getD q.1 dChunk).1⟩

/-- One full streaming `__getitem__` call at the cursor level: seed if
unseeded, then advance/produce as in the seeded machine.  Returns the
successor state and the produced `(chunk_index, frame_index)` pair. -/
def fetchTop (seed workerId : Nat) (s : TopState) : TopState × Nat × Nat :=
  let t := seedTop mkRng shuffleChunks integersBelow seed workerId s
  let a := streamAdvance t.chunks (t.ci.getD 0) t.fi
  (⟨t.chunks, some a.1, a.2.1 + 1⟩, a.1, a.2.1)

/-- `n` successive streaming fetches at the cursor level: the produced
`(chunk_index, frame_index)` pairs and the final state. -/
def runTop (seed workerId : Nat) : Nat → TopState → List (Nat × Nat) × TopState
  | 0, s => ([], s)
  | n + 1, s =>
      let f := fetchTop mkRng shuffleChunks integersBelow seed workerId s
      let r := runTop seed workerId n f.1
      (f.2 :: r.1, r.2)

/-- C4: cursor seeding is deterministic and happens exactly once per worker.
Any two unseeded cursors over identical chunk sets produce identical
`(chunk_index, frame_index)` sequences under the same `(seed, worker_id)`
(whatever frame field they started with, since seeding overwrites it); the
single seeding derives the shuffled chunk list and starting index purely from
`mkRng (seed + worker_id)`; a seeded cursor is never re-seeded (its chunk
list is never reshuffled); and after the first fetch the cursor stays seeded
forever. -/
theorem cursor_seeding_deterministic {R : Type} (mkRng : Nat → R)
    (shuffleChunks : List Chunk → R → List Chunk × R)
    (integersBelow : Nat → R → Nat × R) (seed workerId : Nat) :
    (∀ s₁ s₂ : TopState, s₁.ci = none → s₂.ci = none → s₁.chunks = s₂.chunks →
        ∀ n, (runTop mkRng shuffleChunks integersBelow seed workerId n s₁).1
              = (runTop mkRng shuffleChunks integersBelow seed workerId n s₂).1)
  ∧ (∀ s : TopState, s.ci = none →
        seedTop mkRng shuffleChunks integersBelow seed workerId s
          = ⟨(shuffleChunks s.chunks (mkRng (seed + workerId))).1,
             some (integersBelow (shuffleChunks s.chunks (mkRng (seed + workerId))).1.length
                     (shuffleChunks s.chunks (mkRng (seed + workerId))).2).1,
             ((shuffleChunks s.chunks (mkRng (seed + workerId))).1.getD
                 (integersBelow (shuffleChunks s.chunks (mkRng (seed + workerId))).1.length
                     (shuffleChunks s.chunks (mkRng (seed + workerId))).2).1 dChunk).1⟩)
  ∧ (∀ s : TopState, s.ci.isSome →
        seedTop mkRng shuffleChunks integersBelow seed workerId s = s)
  ∧ (∀ (s : TopState) (n : Nat), 0 < n →
        ((runTop mkRng shuffleChunks integersBelow seed workerId n s).2.ci).isSome) := by
  refine ⟨?_, ?_, ?_, ?_⟩
  · intro s₁ s₂ h1 h2 hc n
    have hseed : seedTop mkRng shuffleChunks integersBelow seed workerId s₁
        = seedTop mkRng shuffleChunks integersBelow seed workerId s₂ := by
      unfold seedTop
      rw [h1, h2, hc]
    cases n with
    | zero => rfl
    | succ n =>
        have hf : fetchTop mkRng shuffleChunks integersBelow seed workerId s₁
            = fetchTop mkRng shuffleChunks integersBelow seed workerId s₂ := by
          unfold fetchTop
          rw [hseed]
        simp only [runTop]
        rw [hf]
  · intro s h
    unfold seedTop
    rw [h]
  · intro s h
    obtain ⟨c, hc⟩ := Option.isSome_iff_exists.mp h
    unfold seedTop
    rw [hc]
  · intro s n hn
    obtain ⟨n, rfl⟩ : ∃ m, n = m + 1 := ⟨n - 1, by omega⟩
    clear hn
    induction n generalizing s with
    | zero => simp [runTop, fetchTop]
    | succ n ih =>
        simp only [runTop]
        exact ih _

end Seeding

/-- Witness for C4 with a concrete RNG model (`R := Nat`): two unseeded
cursors over the same two-chunk list but different initial frame fields
produce the same 3-fetch trace. -/
theorem cursor_seeding_deterministic_witness :
    (⟨[(0, 2, 0), (2, 4, 0)], none, 7⟩ : TopState).ci = none
  ∧ (runTop (fun n => n) (fun l r => (l.reverse, r)) (fun _ r => (0, r)) 42 0 3
        ⟨[(0, 2, 0), (2, 4, 0)], none, 7⟩).1
      = (runTop (fun n => n) (fun l r => (l.reverse, r)) (fun _ r => (0, r)) 42 0 3
        ⟨[(0, 2, 0), (2, 4, 0)], none, 0⟩).1 :=
  ⟨rfl,
    (cursor_seeding_deterministic (fun n => n) (fun l r => (l.reverse, r))
        (fun _ r => (0, r)) 42 0).1
      ⟨[(0, 2, 0), (2, 4, 0)], none, 7⟩ ⟨[(0, 2, 0), (2, 4, 0)], none, 0⟩ rfl rfl rfl 3⟩

/-- C9's embedding of `__getitem__(self, idx)` in chunk-streaming mode: the
function takes the caller-supplied index `idx` exactly as the Python method
does, but the streaming branch (lines 302–377) never reads it. -/
def getItemStreaming {R : Type} (mkRng : Nat → R)
    (shuffleChunks : List Chunk → R → List Chunk × R)
    (integersBelow : Nat → R → Nat × R) (seed workerId : Nat)
    (s : TopState) (idx : Nat) : TopState × Nat × Nat :=
  fetchTop mkRng shuffleChunks integersBelow seed workerId s

/-- C9: in chunk-streaming mode the index argument of `__getitem__` is
ignored: from any cursor state, fetching with index `i` and fetching with
index `j` return the same record position and leave the cursor in the same
successor state. -/
theorem getitem_index_ignored {R : Type} (mkRng : Nat → R)
    (shuffleChunks : List Chunk → R → List Chunk × R)
    (integersBelow : Nat → R → Nat × R) (seed workerId : Nat) :
    ∀ (s : TopState) (i j : Nat),
      getItemStreaming mkRng shuffleChunks integersBelow seed workerId s i
        = getItemStreaming mkRng shuffleChunks integersBelow seed workerId s j :=
  fun _ _ _ => rfl

/-! ### Per-task episode selection (`__init__` lines 150–162) -/

/-- The task an episode belongs to: `item["episode_index"] // 1e4` (task ids
are the high digits of the padded episode id; the float floor-division result
compares equal to the integer task key). -/
def taskOf (ep : Nat) : Nat := ep / 10000

/-- Python `sorted` on integers. -/
def sortNat (l : List Nat) : List Nat := List.insertionSort (· ≤ ·) l

/-- Keys of a Python dict in insertion order: first occurrence of each
element, duplicates dropped. -/
def firstDedup : List Nat → List Nat
  | [] => []
  | a :: l => a :: (firstDedup l).filter (fun b => b ≠ a)

/-- `epi_by_task[t]` before sorting (lines 152–155): the episodes of task `t`
in enumeration order. -/
def taskGroup (allEps : List Nat) (t : Nat) : List Nat :=
  allEps.filter (fun ep => taskOf ep = t)

/-- `epi_by_task[task_id] = sorted(ep_indices)` (line 158). -/
def sortedTaskGroup (allEps : List Nat) (t : Nat) : List Nat :=
  sortNat (taskGroup allEps t)

/-- Line 160:
`[epi_by_task[task_id][i] for i in episodes if i < len(epi_by_task[task_id])]`,
applied when the caller supplied positions; `episodes=None` leaves the group
unchanged. -/
def cherryPick (g : List Nat) : Option (List Nat) → List Nat
  | none => g
  | some pos => (pos.filter (fun i => i < g.length)).map (fun i => g.getD i 0)

/-- The iteration order of `epi_by_task.items()`: tasks in first-occurrence
order among the enumerated episodes whose derived task id is requested. -/
def taskOrder (tasks : List Nat) (allEps : List Nat) : List Nat :=
  firstDedup ((allEps.map taskOf).filter (fun t => t ∈ tasks))

/-- Lines 150–162 end to end: group the enumerated episodes by derived task
id (keeping only requested tasks), sort each group ascending, apply the
caller-supplied local positions (skipping out-of-range ones), flatten in dict
order, and sort the result (`self.episodes = sorted(...)`, line 162). -/
def selectEpisodes (tasks : List Nat) (allEps : List Nat)
    (positions : Option (List Nat)) : List Nat :=
  sortNat (((taskOrder tasks allEps).map
      (fun t => cherryPick (sortedTaskGroup allEps t) positions)).flatten)

/-- `sorted` only depends on the multiset of its input. -/
lemma sortNat_eq_of_perm {l₁ l₂ : List Nat} (h : l₁.Perm l₂) :
    sortNat l₁ = sortNat l₂ :=
  List.eq_of_perm_of_sorted
    ((List.perm_insertionSort _ l₁).trans (h.trans (List.perm_insertionSort _ l₂).symm))
    (List.sorted_insertionSort _ l₁) (List.sorted_insertionSort _ l₂)

/-- First-occurrence deduplication produces no duplicates. -/
lemma firstDedup_nodup : ∀ l : List Nat, (firstDedup l).Nodup := by
  intro l
  induction l with
  | nil => exact List.nodup_nil
  | cons a l ih =>
      refine List.Nodup.cons ?_ (ih.filter _)
      intro hmem
      have := List.of_mem_filter hmem
      simp at this

/-- First-occurrence deduplication preserves membership. -/
lemma mem_firstDedup : ∀ (l : List Nat) (x : Nat), x ∈ firstDedup l ↔ x ∈ l := by
  intro l
  induction l with
  | nil => intro x; rfl
  | cons a l ih =>
      intro x
      by_cases hx : x = a
      · subst hx
        simp [firstDedup]
      · simp only [firstDedup, List.mem_cons, List.mem_filter]
        constructor
        · rintro (rfl | ⟨hmem, _⟩)
          · exact Or.inl rfl
          · exact Or.inr ((ih x).mp hmem)
        · rintro (rfl | hmem)
          · exact Or.inl rfl
          · exact Or.inr ⟨(ih x).mpr hmem, by simpa using hx⟩

/-- Duplicate-free lists with the same members are permutations. -/
lemma perm_of_nodup_of_mem_iff {l₁ l₂ : List Nat} (h1 : l₁.Nodup) (h2 : l₂.Nodup)
    (h : ∀ x, x ∈ l₁ ↔ x ∈ l₂) : l₁.Perm l₂ := by
  rw [List.perm_iff_count]
  intro a
  by_cases ha : a ∈ l₁
  · rw [List.count_eq_one_of_mem h1 ha, List.count_eq_one_of_mem h2 ((h a).mp ha)]
  · rw [List.count_eq_zero_of_not_mem ha,
      List.count_eq_zero_of_not_mem (fun hx => ha ((h a).mpr hx))]

/-- C6: per-task episode truncation is deterministic and independent of the
on-disk enumeration order: each task's episodes are sorted ascending by id
before the caller-supplied local positions are applied, and the selected
episode list is the same for any two enumerations of the same episode
records (any permutation), for the same requested tasks and positions. -/
theorem episode_selection_order_independent (tasks : List Nat)
    (positions : Option (List Nat)) (l₁ l₂ : List Nat) (h : l₁.Perm l₂) :
    selectEpisodes tasks l₁ positions = selectEpisodes tasks l₂ positions
  ∧ (∀ t, sortedTaskGroup l₁ t = sortedTaskGroup l₂ t)
  ∧ (∀ t, List.Sorted (· ≤ ·) (sortedTaskGroup l₁ t))
  ∧ List.Sorted (· ≤ ·) (selectEpisodes tasks l₁ positions) := by
  have hg : ∀ t, sortedTaskGroup l₁ t = sortedTaskGroup l₂ t := by
    intro t
    exact sortNat_eq_of_perm (h.filter _)
  have horder : (taskOrder tasks l₁).Perm (taskOrder tasks l₂) := by
    apply perm_of_nodup_of_mem_iff (firstDedup_nodup _) (firstDedup_nodup _)
    intro x
    rw [mem_firstDedup, mem_firstDedup]
    exact ((h.map taskOf).filter _).mem_iff
  refine ⟨?_, hg, ?_, ?_⟩
  · unfold selectEpisodes
    apply sortNat_eq_of_perm
    have hmap : (taskOrder tasks l₁).map
          (fun t => cherryPick (sortedTaskGroup l₁ t) positions)
        = (taskOrder tasks l₁).map
          (fun t => cherryPick (sortedTaskGroup l₂ t) positions) := by
      apply List.map_congr_left
      intro t _
      rw [hg t]
    rw [hmap]
    exact (horder.map _).flatten
  · intro t
    exact List.sorted_insertionSort _ _
  · exact List.sorted_insertionSort _ _

/-- Witness for C6: two enumeration orders of the same four episodes of two
tasks, truncated to the first position of each task. -/
theorem episode_selection_order_independent_witness :
    ([10000, 1, 10001, 0] : List Nat).Perm [0, 1, 10000, 10001]
  ∧ selectEpisodes [0, 1] [10000, 1, 10001, 0] (some [0])
      = selectEpisodes [0, 1] [0, 1, 10000, 10001] (some [0]) :=
  ⟨by decide, (episode_selection_order_independent [0, 1] (some [0])
      [10000, 1, 10001, 0] [0, 1, 10000, 10001] (by decide)).1⟩

/-- C10: out-of-range per-task local episode positions are silently skipped:
the guarded comprehension of line 160 equals option-valued indexing with the
out-of-range positions dropped, `episodes=None` keeps the whole group, and
consequently the per-task selection is exactly the episodes at the in-range
supplied positions of the ascending-sorted group. -/
theorem out_of_range_positions_skipped :
    (∀ (g : List Nat) (pos : List Nat),
        cherryPick g (some pos) = pos.filterMap (fun i => g[i]?))
  ∧ (∀ g : List Nat, cherryPick g none = g)
  ∧ (∀ (tasks allEps : List Nat) (pos : List Nat),
        selectEpisodes tasks allEps (some pos)
          = sortNat (((taskOrder tasks allEps).map
              (fun t => pos.filterMap (fun i => (sortedTaskGroup allEps t)[i]?))).flatten)) := by
  have hpick : ∀ (g : List Nat) (pos : List Nat),
      cherryPick g (some pos) = pos.filterMap (fun i => g[i]?) := by
    intro g pos
    induction pos with
    | nil => rfl
    | cons i pos ih =>
        simp only [cherryPick] at ih ⊢
        by_cases hi : i < g.length
        · rw [List.filter_cons_of_pos (by simpa using hi), List.map_cons,
            List.filterMap_cons_some (List.getElem?_eq_getElem hi), ih]
          congr 1
          simp [List.getD_eq_getElem?_getD, List.getElem?_eq_getElem hi]
        · rw [List.filter_cons_of_neg (by simpa using hi),
            List.filterMap_cons_none (List.getElem?_eq_none (by omega)), ih]
  refine ⟨hpick, fun g => rfl, ?_⟩
  intro tasks allEps pos
  unfold selectEpisodes
  congr 2
  apply List.map_congr_left
  intro t _
  exact hpick _ pos

/-! ### Construction-time checks and recognized options (`__init__`) -/

/-- The file reads the construction sequence can perform, in program order:
metadata files read by `BehaviorLerobotDatasetMetadata` (line 140 onwards),
the episode table (line 150), tabular shards (`load_hf_dataset`, line 195 /
201), and video files. -/
inductive IORead where
  | infoJson
  | tasksTable
  | episodesTable
  | episodesStats
  | dataShard
  | videoFile
  deriving DecidableEq

/-- Line 127: `modalities = ["rgb", "depth", "seg_instance_id"]` when the
caller passed `None`. -/
def defaultModalities : List String := ["rgb", "depth", "seg_instance_id"]

/-- The construction options consulted before and during the early checks. -/
structure InitConfig where
  modalities : Option (List String)
  videoBackend : String
  chunkStreaming : Bool

/-- The modality list after the line-127 default. -/
def effectiveModalities (cfg : InitConfig) : List String :=
  cfg.modalities.getD defaultModalities

/-- The construction sequence as a trace: the list of file reads performed,
and either the first failed check (lines 128–134, both before any metadata,
shard, or video read — only the pure attribute assignments and the
`root.mkdir` of line 122 precede them) or success.  On success the reads of
metadata, episode table, shards, and videos follow in program order. -/
def constructReads (cfg : InitConfig) : List IORead × Except String Unit :=
  let mods := effectiveModalities cfg
  if mods.contains "seg_instance_id" && !cfg.chunkStreaming then
    ([], .error "ConfigError: seg_instance_id requires chunk_streaming_using_keyframe")
  else if mods.contains "depth" && cfg.videoBackend != "pyav" then
    ([], .error "ConfigError: depth requires the pyav backend")
  else
    ([.infoJson, .tasksTable, .episodesTable, .episodesStats, .dataShard, .videoFile],
     .ok ())

/-- C7: requesting the `seg_instance_id` modality (explicitly or through the
default modality list) with chunk streaming disabled fails the line-128
assertion — surfaced as the spec's `ConfigError` — before any metadata,
shard, or video file is read: the failing trace contains no read at all. -/
theorem seg_instance_requires_chunk_streaming (cfg : InitConfig)
    (hm : "seg_instance_id" ∈ effectiveModalities cfg)
    (hcs : cfg.chunkStreaming = false) :
    (constructReads cfg).1 = []
  ∧ (constructReads cfg).2
      = .error "ConfigError: seg_instance_id requires chunk_streaming_using_keyframe" := by
  have hcond : ((effectiveModalities cfg).contains "seg_instance_id"
      && !cfg.chunkStreaming) = true := by
    simp only [hcs, Bool.not_false, Bool.and_true, List.contains_eq_any_beq]
    rw [List.any_eq_true]
    exact ⟨_, hm, by simp⟩
  unfold constructReads
  simp only [hcond]
  exact ⟨rfl, rfl⟩

/-- Witness for C7: the default modality list with chunk streaming disabled. -/
theorem seg_instance_requires_chunk_streaming_witness :
    "seg_instance_id" ∈ effectiveModalities ⟨none, "pyav", false⟩
  ∧ (constructReads ⟨none, "pyav", false⟩).1 = [] :=
  ⟨by decide,
    (seg_instance_requires_chunk_streaming ⟨none, "pyav", false⟩ (by decide) rfl).1⟩

/-- The parameters of `BehaviorLeRobotDataset.__init__` (lines 58–80), the
public construction configuration. -/
def initParams : List String :=
  ["repo_id", "root", "episodes", "image_transforms", "delta_timestamps",
   "tolerance_s", "revision", "force_cache_sync", "download_videos",
   "video_backend", "batch_encoding_size", "tasks", "modalities", "cameras",
   "local_only", "check_timestamp_sync", "chunk_streaming_using_keyframe",
   "shuffle", "seed"]

/-- Line 170: `self.chunks = self._get_keyframe_chunk_indices()` — the
planner is always invoked with its default `chunk_size=250` (line 409); no
construction argument reaches it. -/
def constructChunks (episodeLengths : List Nat) : List Chunk :=
  getKeyframeChunkIndices episodeLengths 250

/-- Counterexample for C8 as stated: the public construction configuration
does not recognize a `chunk_size` option — `chunk_size` is not among the
`__init__` parameters (while the other streaming options are), so a caller
cannot select the chunk partition granularity. -/
theorem chunk_size_not_a_constructor_option :
    "chunk_size" ∉ initParams
  ∧ "chunk_streaming_using_keyframe" ∈ initParams
  ∧ "shuffle" ∈ initParams
  ∧ "seed" ∈ initParams := by
  refine ⟨?_, ?_, ?_, ?_⟩ <;> decide

/-- C8 amended: construction does not accept a `chunk_size` option; the chunk
partition granularity is fixed — construction always invokes the chunk
planner with its internal default `chunk_size = 250`, so the chunks built at
construction partition the global row range into GOP-sized pieces of length
250 (except final episode chunks). -/
theorem chunk_size_fixed_at_250 :
    "chunk_size" ∉ initParams
  ∧ (∀ lengths, constructChunks lengths = getKeyframeChunkIndices lengths 250)
  ∧ (∀ lengths, ((constructChunks lengths).map chunkRange).flatten
        = List.range lengths.sum)
  ∧ (∀ lengths, ∀ ch ∈ constructChunks lengths,
        ch.1 < ch.2.1 ∧ ch.2.1 - ch.1 ≤ 250) := by
  refine ⟨by decide, fun _ => rfl, ?_, ?_⟩
  · intro lengths
    rw [List.range_eq_range']
    exact chunksAux_coverage 250 (by decide) lengths 0
  · intro lengths ch hch
    exact chunksAux_wf 250 (by decide) lengths 0 ch hch

end B1K
